import Mathlib

/-!
Shallow embedding of the `freelist` Go package: a generic, mutex-protected
intrusive free list `FreeList[E]` with lazy, once-only reflection-based
resolution of the byte offset of the element's `next *E` linkage field,
optional `New` (factory) and `Reset` hooks, and the baseline
`nativeFreeList` from the test file that accesses the `next` field directly.

Modelling conventions:
- Pointers are `Option Addr` with `Addr := Nat`; `none` is Go's `nil`.
- The heap maps addresses to element objects.  An element object of a
  well-formed element type is a payload together with the `next` pointer
  field; the concrete byte layout of the element type is carried by a
  `Layout` (offset of the `next` field), and the unsafe pointer
  arithmetic `*(**E)(unsafe.Pointer(uintptr(unsafe.Pointer(x)) + l.next))`
  is modelled as an access to the field located at the given offset: it
  reaches the `next` field exactly when the offset equals the layout's
  offset of `next`, and is a memory fault (`badAccess`) otherwise.
- Go panics are the `Except.error` side, carrying the state at the time of
  the panic (Go panics do not roll back memory writes).
- `sync.Mutex` serialises `Get`/`Put`; the sequential model makes each
  operation one atomic step.  `sync.Once` is the `initDone` flag; note
  that Go's `Once.Do` marks the `Once` done even when the closure panics.
- Hook invocations are recorded as events so that "invoked exactly once"
  is expressible.
-/

/-- Heap addresses.  `Addr` is never Go's `nil`; a nullable pointer is `Ptr`. -/
abbrev Addr := Nat

/-- A Go pointer value `*E`: `none` is `nil`. -/
abbrev Ptr := Option Addr

/-- Types a struct field can have, as compared by `reflect`: a pointer to a
named type, or some other (non-pointer-to-self) type identified by name.
Go type identity is name identity here; distinct types have distinct names. -/
inductive FTy where
  | prim (name : String)
  | ptrTo (target : String)
  deriving DecidableEq, Repr

/-- One field of a Go struct type, as seen by `reflect`: its name, its type
and its byte offset within the struct. -/
structure GoField where
  fname : String
  fty : FTy
  off : Nat
  deriving DecidableEq, Repr

/-- The element type `E` of a `FreeList[E]` instantiation, as seen by
`reflect.TypeOf((*E)(nil)).Elem()`: either its `Kind()` is not `Struct`,
or it is a struct with a name and a flat field list (no embedded fields;
`GoTy` below is the faithful descriptor with value-embedded fields, and
`resolveNextG_toGoTy` shows this flat model is its restriction). -/
inductive ETy where
  | nonStruct (name : String)
  | strct (name : String) (fields : List GoField)
  deriving DecidableEq, Repr

/-- `reflect`'s `FieldByName` on a flat field list: the first field with the
given name, if any.  This is `reflect.Type.FieldByName` restricted to
structs without embedded fields; the faithful lookup with embedded-field
promotion is `fieldByNameG` below. -/
def fieldByName (fs : List GoField) (n : String) : Option GoField :=
  fs.find? (fun f => f.fname = n)

/-- The resolution performed inside `FreeList.init`'s once-closure:
if `E`'s kind is `Struct`, look up the field named `"next"`, and if its type
is exactly `reflect.PointerTo(typeOfE)` return its offset; otherwise fail
(the closure panics via the nil type assertion).  Flat-struct restriction;
the faithful version over `GoTy` is `resolveNextG`. -/
def resolveNext : ETy → Option Nat
  | .nonStruct _ => none
  | .strct name fs =>
    match fieldByName fs "next" with
    | some f => if f.fty = .ptrTo name then some f.off else none
    | none => none

/-- An element object on the heap, for a well-formed element type: the
non-linkage payload and the `next` linkage field. -/
structure Obj (P : Type) where
  payload : P
  next : Ptr
  deriving DecidableEq, Repr

/-- The byte layout of a well-formed element type: where its `next` field
lives. -/
structure Layout where
  nextOff : Nat
  deriving DecidableEq, Repr

/-- The heap: objects at addresses, plus a bump allocator for fresh
addresses (used when the `New` hook allocates). -/
structure Mem (P : Type) where
  heap : Addr → Option (Obj P)
  nextAddr : Addr

/-- Overwrite the object at address `a`. -/
def Mem.update (m : Mem P) (a : Addr) (o : Obj P) : Mem P :=
  ⟨fun b => if b = a then some o else m.heap b, m.nextAddr⟩

/-- Allocate a fresh object, returning its address. -/
def Mem.alloc (m : Mem P) (o : Obj P) : Mem P × Addr :=
  (⟨fun b => if b = m.nextAddr then some o else m.heap b, m.nextAddr + 1⟩,
   m.nextAddr)

/-- The mutable fields of the Go `FreeList[E]` struct: `free` (the list
head), the `sync.Once` state of `initOnce`, and `next` (the cached byte
offset of the linkage field; zero value before resolution). -/
structure FreeList where
  free : Ptr
  initDone : Bool
  next : Nat
  deriving DecidableEq, Repr

/-- The configuration of a `FreeList[E]` instantiation: the element type as
`reflect` sees it, its actual layout, and the `New`/`Reset` hooks
(settable before first use, constant during operation).
`New` is given the number of previous `New` invocations, so stateful
factories (the tests' incrementing counter) are expressible; a `Reset`
returning `none` models a hook that panics. -/
structure Config (P : Type) where
  ety : ETy
  L : Layout
  New : Option (Nat → Obj P)
  Reset : Option (Obj P → Option (Obj P))

/-- The whole program state an operation acts on: the pool, the heap, and
the count of `New` invocations so far. -/
structure St (P : Type) where
  fl : FreeList
  mem : Mem P
  newCount : Nat

/-- How a model step can terminate abnormally. -/
inductive PanicKind where
  | badType
  | hookPanic
  | badAccess
  deriving DecidableEq, Repr

/-- Observable hook invocations. -/
inductive Ev where
  | resetCalled (a : Addr)
  | newCalled (a : Addr)
  deriving DecidableEq, Repr

/-- Result of a model step: either a Go panic (with the state at that
point — panics do not undo memory writes), or the new state and a value. -/
abbrev Res (P : Type) (α : Type) := Except (PanicKind × St P) (St P × α)

/-- `FreeList.init`: `l.initOnce.Do(closure)` followed by the `didPanic`
check.  If the `Once` has already completed — which `sync.Once.Do`
guarantees even when the closure panicked — the closure is skipped and the
function-local `didPanic` is still `false`, so `init` returns normally
(the post-`Do` `if didPanic` branch is unreachable).  Otherwise the closure
runs: on successful resolution it stores the offset in `l.next`; on failure
it panics via the nil type assertion, with the `Once` already marked done. -/
def FreeList.init (cfg : Config P) (l : FreeList) : FreeList × Option PanicKind :=
  if l.initDone then (l, none)
  else
    match resolveNext cfg.ety with
    | some off => ({ l with initDone := true, next := off }, none)
    | none => ({ l with initDone := true }, some .badType)

/-- Read the field at byte offset `off` of the object at `x`, interpreted
as a `*E` value (the model of `*(**E)(unsafe.Pointer(... + off))`):
well-defined exactly when `x` is a live allocation and `off` is the offset
of the `next` field. -/
def readPtrAt (L : Layout) (m : Mem P) (x : Addr) (off : Nat) : Option Ptr :=
  match m.heap x with
  | none => none
  | some o => if off = L.nextOff then some o.next else none

/-- Write a `*E` value into the field at byte offset `off` of the object at
`x`; well-defined under the same conditions as `readPtrAt`. -/
def writePtrAt (L : Layout) (m : Mem P) (x : Addr) (off : Nat) (p : Ptr) :
    Option (Mem P) :=
  match m.heap x with
  | none => none
  | some o => if off = L.nextOff then some (m.update x { o with next := p }) else none

/-- `FreeList.Get`: run `init`; take the head if non-nil, advancing `free`
through the cached offset, then apply `Reset` (outside the lock) if
configured; on an empty list call `New` if configured, else return `nil`. -/
def FreeList.Get (cfg : Config P) (s : St P) : Res P (Ptr × List Ev) :=
  match s.fl.init cfg with
  | (l, some k) => .error (k, { s with fl := l })
  | (l, none) =>
    let s := { s with fl := l }
    match s.fl.free with
    | some x =>
      match readPtrAt cfg.L s.mem x s.fl.next with
      | none => .error (.badAccess, s)
      | some p =>
        let s := { s with fl := { s.fl with free := p } }
        match cfg.Reset with
        | none => .ok (s, (some x, []))
        | some r =>
          match s.mem.heap x with
          | none => .error (.badAccess, s)
          | some o =>
            match r o with
            | some o2 => .ok ({ s with mem := s.mem.update x o2 }, (some x, [.resetCalled x]))
            | none => .error (.hookPanic, s)
    | none =>
      match cfg.New with
      | none => .ok (s, (none, []))
      | some mkNew =>
        let (m, a) := s.mem.alloc (mkNew s.newCount)
        .ok ({ s with mem := m, newCount := s.newCount + 1 }, (some a, [.newCalled a]))

/-- `FreeList.Put`: run `init`; write the current head into `x`'s field at
the cached offset, then make `x` the head. -/
def FreeList.Put (cfg : Config P) (s : St P) (x : Addr) : Res P Unit :=
  match s.fl.init cfg with
  | (l, some k) => .error (k, { s with fl := l })
  | (l, none) =>
    let s := { s with fl := l }
    match writePtrAt cfg.L s.mem x s.fl.next s.fl.free with
    | none => .error (.badAccess, s)
    | some m => .ok ({ s with mem := m, fl := { s.fl with free := some x } }, ())

/-- The state of the test file's baseline `nativeFreeList`: the same heap
and `New` counter, but a pool that is just the head pointer — no `Once`,
no cached offset; `x.next` is accessed directly. -/
structure NSt (P : Type) where
  free : Ptr
  mem : Mem P
  newCount : Nat

/-- Result of a `nativeFreeList` step. -/
abbrev NRes (P : Type) (α : Type) := Except (PanicKind × NSt P) (NSt P × α)

/-- `nativeFreeList.Get`: like `FreeList.Get` but reading `x.next`
directly and performing no initialization. -/
def nativeFreeList.Get (cfg : Config P) (s : NSt P) : NRes P (Ptr × List Ev) :=
  match s.free with
  | some x =>
    match s.mem.heap x with
    | none => .error (.badAccess, s)
    | some o =>
      let s := { s with free := o.next }
      match cfg.Reset with
      | none => .ok (s, (some x, []))
      | some r =>
        match r o with
        | some o2 => .ok ({ s with mem := s.mem.update x o2 }, (some x, [.resetCalled x]))
        | none => .error (.hookPanic, s)
  | none =>
    match cfg.New with
    | none => .ok (s, (none, []))
    | some mkNew =>
      let (m, a) := s.mem.alloc (mkNew s.newCount)
      .ok ({ s with mem := m, newCount := s.newCount + 1 }, (some a, [.newCalled a]))

/-- `nativeFreeList.Put`: `x.next = l.free; l.free = x`, directly. -/
def nativeFreeList.Put (_cfg : Config P) (s : NSt P) (x : Addr) : NRes P Unit :=
  match s.mem.heap x with
  | none => .error (.badAccess, s)
  | some o =>
    .ok ({ s with mem := s.mem.update x { o with next := s.free }, free := some x }, ())

/-- One client operation against a pool. -/
inductive Op where
  | get
  | put (x : Addr)
  deriving DecidableEq, Repr

/-- One `FreeList` step; a `put` records the trivial output. -/
def stepFL (cfg : Config P) (s : St P) : Op → Res P (Ptr × List Ev)
  | .get => FreeList.Get cfg s
  | .put x =>
    match FreeList.Put cfg s x with
    | .error e => .error e
    | .ok (s2, _) => .ok (s2, (none, []))

/-- One `nativeFreeList` step. -/
def stepN (cfg : Config P) (s : NSt P) : Op → NRes P (Ptr × List Ev)
  | .get => nativeFreeList.Get cfg s
  | .put x =>
    match nativeFreeList.Put cfg s x with
    | .error e => .error e
    | .ok (s2, _) => .ok (s2, (none, []))

/-- Run a sequence of operations against the generic `FreeList`,
collecting each operation's output; stops at the first panic. -/
def runFL (cfg : Config P) (s : St P) : List Op → Except (PanicKind × St P) (St P × List (Ptr × List Ev))
  | [] => .ok (s, [])
  | op :: ops =>
    match stepFL cfg s op with
    | .error e => .error e
    | .ok (s2, out) =>
      match runFL cfg s2 ops with
      | .error e => .error e
      | .ok (s3, outs) => .ok (s3, out :: outs)

/-- Run a sequence of operations against `nativeFreeList`. -/
def runN (cfg : Config P) (s : NSt P) : List Op → Except (PanicKind × NSt P) (NSt P × List (Ptr × List Ev))
  | [] => .ok (s, [])
  | op :: ops =>
    match stepN cfg s op with
    | .error e => .error e
    | .ok (s2, out) =>
      match runN cfg s2 ops with
      | .error e => .error e
      | .ok (s3, outs) => .ok (s3, out :: outs)

/-- Forget the `FreeList`-only bookkeeping (`initDone`, cached offset):
what a `FreeList` state and a `nativeFreeList` state have in common. -/
def proj (s : St P) : NSt P := ⟨s.fl.free, s.mem, s.newCount⟩

/-- Transport a `FreeList` run result to the `nativeFreeList` observation
space. -/
def obs : Except (PanicKind × St P) (St P × α) → Except (PanicKind × NSt P) (NSt P × α)
  | .error (k, s) => .error (k, proj s)
  | .ok (s, a) => .ok (proj s, a)

/-- `Put` each element of `xs` in order. -/
def putList (cfg : Config P) (s : St P) : List Addr → Res P Unit
  | [] => .ok (s, ())
  | x :: xs =>
    match FreeList.Put cfg s x with
    | .error e => .error e
    | .ok (s2, _) => putList cfg s2 xs

/-- `Get` `n` times, collecting the returned pointers in order. -/
def getList (cfg : Config P) (s : St P) : Nat → Res P (List Ptr)
  | 0 => .ok (s, [])
  | n + 1 =>
    match FreeList.Get cfg s with
    | .error e => .error e
    | .ok (s2, (p, _)) =>
      match getList cfg s2 n with
      | .error e => .error e
      | .ok (s3, ps) => .ok (s3, p :: ps)

/-- The chain of idle elements: following the `next` fields from `p`
passes exactly through the addresses `ys`, in order, and ends at the
pointer `rest`.  Used both for full chains (`rest = none`) and for chain
segments. -/
inductive ChainSeg (m : Mem P) : Ptr → List Addr → Ptr → Prop where
  | nil (p : Ptr) : ChainSeg m p [] p
  | cons {a : Addr} {o : Obj P} {ys : List Addr} {rest : Ptr} :
      m.heap a = some o → ChainSeg m o.next ys rest →
      ChainSeg m (some a) (a :: ys) rest

/-- The full idle chain from `p`: finite, ending in `nil`, visiting no
address twice (the spec's acyclicity invariant). -/
def Chain (m : Mem P) (p : Ptr) (ys : List Addr) : Prop :=
  ChainSeg m p ys none ∧ ys.Nodup

/-- A configured `Reset` hook that never panics. -/
def resetOk (cfg : Config P) : Prop :=
  ∀ r, cfg.Reset = some r → ∀ o, (r o).isSome

/-- The pool's cached state is trustworthy: if the `Once` has completed,
the cached offset is the real offset of the `next` field.  Holds of a
fresh pool and is preserved by every operation (given `resolveNext`
succeeds on the element type). -/
def goodFL (cfg : Config P) (s : St P) : Prop :=
  s.fl.initDone = true → s.fl.next = cfg.L.nextOff

/-- The state a step left behind, whether it returned or panicked. -/
def postState : Except (PanicKind × St P) (St P × α) → St P
  | .error (_, s) => s
  | .ok (s, _) => s

/-! ### The faithful `reflect` field lookup, embedded structs included

`reflect.Type.FieldByName` does not only scan a struct's own fields: when
the name is absent there, it searches value-embedded (anonymous) struct
fields breadth-first and returns a promoted field found at the unique
shallowest embedding depth; two or more matches at that depth cancel each
other out and the lookup fails.  For a promoted field the returned
`StructField.Offset` is the field's offset within its immediate embedding
struct — not within the outer type.  `ETy`/`fieldByName`/`resolveNext`
above are the restriction of this lookup to flat structs (no embedded
fields), the domain over which the heap-level claims quantify;
`resolveNextG_toGoTy` proves the restriction agrees with the faithful
lookup there.  Embedded pointer-to-struct fields (also promoted by Go) are
not represented: the tree below carries value embedding only. -/

mutual
/-- A Go type as `reflect` sees it, embedded fields included: a non-struct
kind, a pointer to a named type, or a named struct with its field list.
Go type identity is name identity here, as for `FTy`. -/
inductive GoTy where
  | prim (name : String)
  | ptrTo (target : String)
  | strct (name : String) (fields : List GoFieldT)

/-- One struct field: its name, its type, its byte offset within its
immediate struct, and whether it is an embedded (anonymous) field. -/
inductive GoFieldT where
  | mk (fname : String) (fty : GoTy) (off : Nat) (anon : Bool)
end

/-- The field's name. -/
def GoFieldT.fname : GoFieldT → String
  | .mk n _ _ _ => n

/-- The field's type. -/
def GoFieldT.fty : GoFieldT → GoTy
  | .mk _ t _ _ => t

/-- The field's byte offset within its immediate struct. -/
def GoFieldT.off : GoFieldT → Nat
  | .mk _ _ o _ => o

/-- Whether the field is embedded (anonymous). -/
def GoFieldT.anon : GoFieldT → Bool
  | .mk _ _ _ a => a

/-- The `reflect.PointerTo(typeOfE) == nextField.Type` comparison: the
field type is exactly pointer-to-the-named-type. -/
def GoTy.isPtrTo (t : GoTy) (n : String) : Bool :=
  match t with
  | .ptrTo m => m = n
  | _ => false

/-- The field lists of the value-embedded struct fields of `fs`: the
structs scanned at the next embedding depth. -/
def embeddedStructs (fs : List GoFieldT) : List (List GoFieldT) :=
  fs.filterMap fun f =>
    if f.anon then
      match f.fty with
      | .strct _ gs => some gs
      | _ => none
    else none

/-- All fields reachable at embedding depth `d`: the fields themselves at
depth 0; at depth `d + 1`, the depth-`d` fields of every value-embedded
struct. -/
def fieldsAtDepth : Nat → List GoFieldT → List GoFieldT
  | 0, fs => fs
  | d + 1, fs => ((embeddedStructs fs).map (fieldsAtDepth d)).flatten

/-- The fields named `n` at embedding depth `d` (one occurrence per
embedding path, so a struct embedded twice contributes twice). -/
def matchesAt (fs : List GoFieldT) (n : String) (d : Nat) : List GoFieldT :=
  (fieldsAtDepth d fs).filter (fun f => f.fname = n)

/-- The breadth-first promoted-field search of `reflect`'s
`FieldByNameFunc`, from depth `d` on: stop at the shallowest depth that
has a match; a unique match is returned, two or more cancel out and the
lookup fails.  The second argument is descent fuel; `GoTy.sizeFields`
bounds the deepest embedding (`fieldsAtDepth_lt_size`), so the fuel used
by `fieldByNameG` never runs out early. -/
def promotedSearch (fs : List GoFieldT) (n : String) : Nat → Nat → Option GoFieldT
  | _, 0 => none
  | d, fuel + 1 =>
    match matchesAt fs n d with
    | [] => promotedSearch fs n (d + 1) fuel
    | [f] => some f
    | _ => none

mutual
/-- Structural size of a type (used to bound the embedding depth). -/
def GoTy.size : GoTy → Nat
  | .prim _ => 1
  | .ptrTo _ => 1
  | .strct _ fs => 1 + GoTy.sizeFields fs

/-- Structural size of a field list. -/
def GoTy.sizeFields : List GoFieldT → Nat
  | [] => 0
  | f :: fs => GoFieldT.size f + GoTy.sizeFields fs

/-- Structural size of a field. -/
def GoFieldT.size : GoFieldT → Nat
  | .mk _ t _ _ => 1 + GoTy.size t
end

/-- `reflect.Type.FieldByName`: a direct field with the given name wins;
otherwise the breadth-first promoted search starts at depth 1. -/
def fieldByNameG (fs : List GoFieldT) (n : String) : Option GoFieldT :=
  match fs.find? (fun f => f.fname = n) with
  | some f => some f
  | none => promotedSearch fs n 1 (GoTy.sizeFields fs)

/-- `FreeList.init`'s resolution over the faithful `reflect` model: if the
kind is `Struct`, run `FieldByName "next"` and check the found field's
type is exactly pointer-to-the-element-type, recording the found
`StructField`'s offset (for a promoted field: its offset within its
immediate embedding struct). -/
def resolveNextG : GoTy → Option Nat
  | .prim _ => none
  | .ptrTo _ => none
  | .strct name fs =>
    match fieldByNameG fs "next" with
    | some f => if f.fty.isPtrTo name then some f.off else none
    | none => none

/-- Embed a flat field type into the faithful model. -/
def FTy.toGoTy : FTy → GoTy
  | .prim n => .prim n
  | .ptrTo t => .ptrTo t

/-- Embed a flat field (never anonymous). -/
def GoField.toGoFieldT (f : GoField) : GoFieldT :=
  .mk f.fname f.fty.toGoTy f.off false

/-- Embed a flat element type descriptor into the faithful model. -/
def ETy.toGoTy : ETy → GoTy
  | .nonStruct n => .prim n
  | .strct n fs => .strct n (fs.map GoField.toGoFieldT)

/-- The flat test type `T` in the faithful model: payload `A` at offset 0
and a direct `next *T` at offset 8. -/
def tFieldsG : List GoFieldT :=
  [.mk "A" (.prim "int") 0 false, .mk "next" (.ptrTo "T") 8 false]

/-- `type H struct \x7b next *T \x7d`: a struct providing `next *T` at offset 0
within `H`. -/
def hFields : List GoFieldT := [.mk "next" (.ptrTo "T") 0 false]

/-- The fields of `type T struct \x7b A int; H \x7d`: no direct field named
`next`; `H` is value-embedded at byte offset 8, so the promoted `next`
lies at byte offset 8 within `T` while its `StructField.Offset` is 0. -/
def embFields : List GoFieldT :=
  [.mk "A" (.prim "int") 0 false, .mk "H" (.strct "H" hFields) 8 true]

/-- The embedded-struct element type of the C4 counterexample. -/
def embTy : GoTy := .strct "T" embFields

/-- Fields embedding two structs that both provide `next *T2` at depth 1:
the two promoted candidates cancel. -/
def tieFields : List GoFieldT :=
  [.mk "H1" (.strct "H1" [.mk "next" (.ptrTo "T2") 0 false]) 0 true,
   .mk "H2" (.strct "H2" [.mk "next" (.ptrTo "T2") 0 false]) 8 true]

/-- The two-candidate element type. -/
def tieTy : GoTy := .strct "T2" tieFields

/-- A flat struct with no `next` field anywhere. -/
def noNextFields : List GoFieldT :=
  ([⟨"A", FTy.prim "int", 0⟩] : List GoField).map GoField.toGoFieldT


/-! ### Characterization lemmas for `init`, `Get` and `Put` -/

theorem FreeList.init_good (cfg : Config P) (l : FreeList)
    (hwf : resolveNext cfg.ety = some cfg.L.nextOff)
    (hg : l.initDone = true → l.next = cfg.L.nextOff) :
    l.init cfg = ({ l with initDone := true, next := cfg.L.nextOff }, none) := by
  unfold FreeList.init
  by_cases h : l.initDone = true
  · cases l with
    | mk free initDone nxt =>
      simp only at h hg
      subst h
      simp [hg rfl]
  · simp only [Bool.not_eq_true] at h
    simp [h, hwf]

theorem FreeList.Put_eq (cfg : Config P) (s : St P) (x : Addr) (o : Obj P)
    (hwf : resolveNext cfg.ety = some cfg.L.nextOff)
    (hg : goodFL cfg s)
    (hx : s.mem.heap x = some o) :
    FreeList.Put cfg s x =
      .ok ({ s with
              fl := { s.fl with initDone := true, next := cfg.L.nextOff, free := some x },
              mem := s.mem.update x { o with next := s.fl.free } }, ()) := by
  unfold FreeList.Put
  rw [FreeList.init_good cfg s.fl hwf hg]
  simp [writePtrAt, hx]

theorem FreeList.Get_reuse_noreset (cfg : Config P) (s : St P) (x : Addr) (o : Obj P)
    (hwf : resolveNext cfg.ety = some cfg.L.nextOff)
    (hg : goodFL cfg s)
    (hfree : s.fl.free = some x)
    (hx : s.mem.heap x = some o)
    (hres : cfg.Reset = none) :
    FreeList.Get cfg s =
      .ok ({ s with
              fl := { s.fl with initDone := true, next := cfg.L.nextOff, free := o.next } },
           (some x, [])) := by
  unfold FreeList.Get
  rw [FreeList.init_good cfg s.fl hwf hg]
  simp [hfree, readPtrAt, hx, hres]

theorem FreeList.Get_reuse_reset (cfg : Config P) (s : St P) (x : Addr) (o o2 : Obj P)
    (r : Obj P → Option (Obj P))
    (hwf : resolveNext cfg.ety = some cfg.L.nextOff)
    (hg : goodFL cfg s)
    (hfree : s.fl.free = some x)
    (hx : s.mem.heap x = some o)
    (hres : cfg.Reset = some r)
    (hro : r o = some o2) :
    FreeList.Get cfg s =
      .ok ({ s with
              fl := { s.fl with initDone := true, next := cfg.L.nextOff, free := o.next },
              mem := s.mem.update x o2 },
           (some x, [.resetCalled x])) := by
  unfold FreeList.Get
  rw [FreeList.init_good cfg s.fl hwf hg]
  simp [hfree, readPtrAt, hx, hres, hro]

theorem FreeList.Get_reuse_reset_panic (cfg : Config P) (s : St P) (x : Addr) (o : Obj P)
    (r : Obj P → Option (Obj P))
    (hwf : resolveNext cfg.ety = some cfg.L.nextOff)
    (hg : goodFL cfg s)
    (hfree : s.fl.free = some x)
    (hx : s.mem.heap x = some o)
    (hres : cfg.Reset = some r)
    (hro : r o = none) :
    FreeList.Get cfg s =
      .error (.hookPanic,
              { s with
                 fl := { s.fl with initDone := true, next := cfg.L.nextOff, free := o.next } }) := by
  unfold FreeList.Get
  rw [FreeList.init_good cfg s.fl hwf hg]
  simp [hfree, readPtrAt, hx, hres, hro]

theorem FreeList.Get_empty_noNew (cfg : Config P) (s : St P)
    (hwf : resolveNext cfg.ety = some cfg.L.nextOff)
    (hg : goodFL cfg s)
    (hfree : s.fl.free = none)
    (hNew : cfg.New = none) :
    FreeList.Get cfg s =
      .ok ({ s with fl := { s.fl with initDone := true, next := cfg.L.nextOff } },
           (none, [])) := by
  unfold FreeList.Get
  rw [FreeList.init_good cfg s.fl hwf hg]
  simp [hfree, hNew]

theorem FreeList.Get_empty_New (cfg : Config P) (s : St P) (mkNew : Nat → Obj P)
    (hwf : resolveNext cfg.ety = some cfg.L.nextOff)
    (hg : goodFL cfg s)
    (hfree : s.fl.free = none)
    (hNew : cfg.New = some mkNew) :
    FreeList.Get cfg s =
      .ok ({ s with
              fl := { s.fl with initDone := true, next := cfg.L.nextOff },
              mem := (s.mem.alloc (mkNew s.newCount)).1,
              newCount := s.newCount + 1 },
           (some s.mem.nextAddr, [.newCalled s.mem.nextAddr])) := by
  unfold FreeList.Get
  rw [FreeList.init_good cfg s.fl hwf hg]
  simp [hfree, hNew, Mem.alloc]

/-! ### Heap and chain lemmas -/

theorem Mem.update_heap_self (m : Mem P) (a : Addr) (o : Obj P) :
    (m.update a o).heap a = some o := by
  simp [Mem.update]

theorem Mem.update_heap_ne (m : Mem P) (a : Addr) (o : Obj P) (b : Addr) (hb : b ≠ a) :
    (m.update a o).heap b = m.heap b := by
  simp [Mem.update, hb]

theorem ChainSeg.heap_isSome {m : Mem P} {p : Ptr} {ys : List Addr} {rest : Ptr}
    (h : ChainSeg m p ys rest) : ∀ a ∈ ys, (m.heap a).isSome := by
  induction h with
  | nil q => intro a ha; cases ha
  | cons ha _ ih =>
    intro b hb
    rcases List.mem_cons.mp hb with heq | hb2
    · subst heq; simp [ha]
    · exact ih b hb2

theorem ChainSeg.mono {m m2 : Mem P} {p : Ptr} {ys : List Addr} {rest : Ptr}
    (h : ChainSeg m p ys rest)
    (hagree : ∀ a ∈ ys, m2.heap a = m.heap a) : ChainSeg m2 p ys rest := by
  induction h with
  | nil q => exact .nil q
  | cons ha _ ih =>
    refine .cons ?_ (ih fun b hb => hagree b (List.mem_cons_of_mem _ hb))
    rw [hagree _ (List.mem_cons_self _ _)]
    exact ha

theorem ChainSeg.update_not_mem {m : Mem P} {p : Ptr} {ys : List Addr} {rest : Ptr}
    (h : ChainSeg m p ys rest) (x : Addr) (o : Obj P) (hx : x ∉ ys) :
    ChainSeg (m.update x o) p ys rest :=
  h.mono fun b hb => Mem.update_heap_ne m x o b (fun hbx => hx (hbx ▸ hb))

theorem ChainSeg.append_one {m : Mem P} {p : Ptr} {ys : List Addr} {rest : Ptr}
    (h : ChainSeg m p ys rest) :
    ∀ {x : Addr} {o : Obj P}, rest = some x → m.heap x = some o →
    ChainSeg m p (ys ++ [x]) o.next := by
  induction h with
  | nil q => intro x o hx ho; subst hx; exact .cons ho (.nil _)
  | cons ha _ ih => intro x o hx ho; exact .cons ha (ih hx ho)

theorem ChainSeg.nil_inv {m : Mem P} {p : Ptr} {rest : Ptr}
    (h : ChainSeg m p [] rest) : p = rest := by
  cases h; rfl

theorem ChainSeg.cons_inv {m : Mem P} {p : Ptr} {a : Addr} {ys : List Addr} {rest : Ptr}
    (h : ChainSeg m p (a :: ys) rest) :
    p = some a ∧ ∃ o, m.heap a = some o ∧ ChainSeg m o.next ys rest := by
  cases h with
  | cons ha hc => exact ⟨rfl, _, ha, hc⟩

/-! ### Concrete fixtures used by the witnesses -/

/-- The test type `T` as `reflect` sees it: a struct with a payload field
`A` at offset 0 and `next *T` at offset 8. -/
def tETy : ETy := .strct "T" [⟨"A", .prim "int", 0⟩, ⟨"next", .ptrTo "T", 8⟩]

/-- The layout matching `tETy`. -/
def tLayout : Layout := ⟨8⟩

/-- A heap with two allocated elements, at addresses 1 and 2. -/
def tMem : Mem Nat := ⟨fun a => if a = 1 then some ⟨11, none⟩ else if a = 2 then some ⟨22, none⟩ else none, 10⟩

/-- A freshly constructed pool over `tMem`. -/
def tSt : St Nat := ⟨⟨none, false, 0⟩, tMem, 0⟩

/-- A pool whose idle chain is the single element at address 1. -/
def tStChain : St Nat := ⟨⟨some 1, false, 0⟩, tMem, 0⟩

/-- A hook-free configuration over `tETy`. -/
def tCfg : Config Nat := ⟨tETy, tLayout, none, none⟩

/-- The tests' incrementing factory. -/
def tNew : Nat → Obj Nat := fun n => ⟨n + 1, none⟩

/-- The tests' resetter, zeroing the payload. -/
def tReset : Obj Nat → Option (Obj Nat) := fun o => some ⟨0, o.next⟩

/-- A configuration with both hooks. -/
def tCfgHooks : Config Nat := ⟨tETy, tLayout, some tNew, some tReset⟩

/-- A resetter that always panics. -/
def tResetPanic : Obj Nat → Option (Obj Nat) := fun _ => none

/-- A configuration whose resetter panics. -/
def tCfgPanic : Config Nat := ⟨tETy, tLayout, none, some tResetPanic⟩

/-- The malformed instantiation of the panic tests: `FreeList[NotStruct]`
(element kind is not `Struct`, so linkage resolution fails). -/
def badCfg : Config Nat := ⟨.nonStruct "NotStruct", tLayout, none, none⟩

/-- A fresh pool of the malformed instantiation, over an empty heap. -/
def badSt : St Nat := ⟨⟨none, false, 0⟩, ⟨fun _ => none, 1⟩, 0⟩

theorem FreeList.init_done (cfg : Config P) (l : FreeList) (h : l.initDone = true) :
    l.init cfg = (l, none) := by
  simp [FreeList.init, h]

/-! ### The claims -/

/-- Claim C2 — the code contradicts the claim (code bug).  On the
malformed instantiation `FreeList[NotStruct]`, the first `Get` does panic
(`badType`), but a second `Get` on the same pool returns normally with the
`nil` result: `sync.Once.Do` marks the `Once` done even when its closure
panics, and the `didPanic` flag in `init` is a function-local variable
that is freshly `false` on every later call, so the post-`Do` panic branch
(with its log message) can never run again.  The claim — and the dead
branch's own log message — say every later call should also terminate
abnormally. -/
theorem claim_C2_bug :
    ∃ s1 : St Nat,
      FreeList.Get badCfg badSt = .error (.badType, s1) ∧
      FreeList.Get badCfg s1 = .ok (s1, (none, [])) :=
  ⟨⟨⟨none, true, 0⟩, badSt.mem, 0⟩, rfl, rfl⟩

/-- Claim C3: a `Get` served from the non-empty list applies the
configured `Resetter` to the returned element exactly once (event trace
`[resetCalled x]`, heap holding `r o`, the single application); a `Get`
served from the `Factory` invokes it exactly once (event trace
`[newCalled a]`, which contains no `resetCalled` event), returns its
result, and never applies the `Resetter`. -/
theorem claim_C3 (cfg : Config P) (s : St P)
    (hwf : resolveNext cfg.ety = some cfg.L.nextOff)
    (hg : goodFL cfg s) :
    (∀ (x : Addr) (o o2 : Obj P) (r : Obj P → Option (Obj P)),
       s.fl.free = some x → s.mem.heap x = some o →
       cfg.Reset = some r → r o = some o2 →
       FreeList.Get cfg s =
         .ok ({ s with
                 fl := { s.fl with initDone := true, next := cfg.L.nextOff, free := o.next },
                 mem := s.mem.update x o2 },
              (some x, [Ev.resetCalled x])) ∧
       (s.mem.update x o2).heap x = some o2) ∧
    (∀ mkNew : Nat → Obj P, s.fl.free = none → cfg.New = some mkNew →
       FreeList.Get cfg s =
         .ok ({ s with
                 fl := { s.fl with initDone := true, next := cfg.L.nextOff },
                 mem := (s.mem.alloc (mkNew s.newCount)).1,
                 newCount := s.newCount + 1 },
              (some s.mem.nextAddr, [Ev.newCalled s.mem.nextAddr])) ∧
       ((s.mem.alloc (mkNew s.newCount)).1).heap s.mem.nextAddr = some (mkNew s.newCount)) := by
  constructor
  · intro x o o2 r hfree hx hres hro
    refine ⟨FreeList.Get_reuse_reset cfg s x o o2 r hwf hg hfree hx hres hro, ?_⟩
    exact Mem.update_heap_self s.mem x o2
  · intro mkNew hfree hNew
    refine ⟨FreeList.Get_empty_New cfg s mkNew hwf hg hfree hNew, ?_⟩
    simp [Mem.alloc]

/-- Witness for C3: both branches at concrete inputs — the reuse branch on
a pool whose chain holds address 1 with payload 11 (reset zeroes it), and
the factory branch on an empty pool (factory produces payload 1). -/
theorem claim_C3_witness :
    resolveNext tCfgHooks.ety = some tCfgHooks.L.nextOff ∧
    goodFL tCfgHooks tStChain ∧
    goodFL tCfgHooks tSt ∧
    tStChain.fl.free = some 1 ∧
    tStChain.mem.heap 1 = some ⟨11, none⟩ ∧
    tCfgHooks.Reset = some tReset ∧
    tReset ⟨11, none⟩ = some ⟨0, none⟩ ∧
    tSt.fl.free = none ∧
    tCfgHooks.New = some tNew ∧
    (FreeList.Get tCfgHooks tStChain =
       .ok ({ tStChain with
               fl := { tStChain.fl with initDone := true, next := tCfgHooks.L.nextOff, free := (Obj.mk 11 none : Obj Nat).next },
               mem := tStChain.mem.update 1 ⟨0, none⟩ },
            (some 1, [Ev.resetCalled 1])) ∧
     (tStChain.mem.update 1 ⟨0, none⟩).heap 1 = some ⟨0, none⟩) ∧
    (FreeList.Get tCfgHooks tSt =
       .ok ({ tSt with
               fl := { tSt.fl with initDone := true, next := tCfgHooks.L.nextOff },
               mem := (tSt.mem.alloc (tNew tSt.newCount)).1,
               newCount := tSt.newCount + 1 },
            (some tSt.mem.nextAddr, [Ev.newCalled tSt.mem.nextAddr])) ∧
     ((tSt.mem.alloc (tNew tSt.newCount)).1).heap tSt.mem.nextAddr = some (tNew tSt.newCount)) :=
  ⟨by decide, by intro h; exact absurd h (by decide), by intro h; exact absurd h (by decide),
   rfl, rfl, rfl, rfl, rfl, rfl,
   (claim_C3 tCfgHooks tStChain (by decide) (by intro h; exact absurd h (by decide))).1 1 ⟨11, none⟩ ⟨0, none⟩ tReset rfl rfl rfl rfl,
   (claim_C3 tCfgHooks tSt (by decide) (by intro h; exact absurd h (by decide))).2 tNew rfl rfl⟩

/-- Claim C5: `Put(x)` on an initialized pool writes the current head into
`x`'s linkage field, makes `x` the head, and changes nothing else: the
payload of `x` and every other heap cell are untouched, the resolution
state and `New` counter are untouched, and the result is independent of
the configured hooks (no hook is invoked — `Put` has no hook event in its
result type because the source calls none). -/
theorem claim_C5 (cfg : Config P) (s : St P) (x : Addr) (o : Obj P)
    (hinit : s.fl.initDone = true)
    (hoff : s.fl.next = cfg.L.nextOff)
    (hx : s.mem.heap x = some o) :
    ∃ s1, FreeList.Put cfg s x = .ok (s1, ()) ∧
      s1.fl.free = some x ∧
      s1.mem.heap x = some { o with next := s.fl.free } ∧
      (∀ b, b ≠ x → s1.mem.heap b = s.mem.heap b) ∧
      s1.fl.initDone = s.fl.initDone ∧
      s1.fl.next = s.fl.next ∧
      s1.newCount = s.newCount ∧
      s1.mem.nextAddr = s.mem.nextAddr ∧
      (∀ cfg2 : Config P, cfg2.L = cfg.L →
        FreeList.Put cfg2 s x = FreeList.Put cfg s x) := by
  have hput : FreeList.Put cfg s x =
      .ok ({ s with
              mem := s.mem.update x { o with next := s.fl.free },
              fl := { s.fl with free := some x } }, ()) := by
    unfold FreeList.Put
    rw [FreeList.init_done cfg s.fl hinit]
    simp [writePtrAt, hx, hoff]
  refine ⟨_, hput, rfl, ?_, ?_, ?_, hoff.symm ▸ rfl, rfl, rfl, ?_⟩
  · exact Mem.update_heap_self s.mem x _
  · intro b hb; exact Mem.update_heap_ne s.mem x _ b hb
  · rfl
  · intro cfg2 hL
    unfold FreeList.Put
    rw [FreeList.init_done cfg s.fl hinit, FreeList.init_done cfg2 s.fl hinit, hL]

/-- Witness for C5: `Put` of address 2 on an initialized pool whose head
is address 1. -/
theorem claim_C5_witness :
    (St.mk ⟨some 1, true, 8⟩ tMem 0).fl.initDone = true ∧
    (St.mk ⟨some 1, true, 8⟩ tMem 0).fl.next = tCfg.L.nextOff ∧
    (St.mk ⟨some 1, true, 8⟩ tMem 0).mem.heap 2 = some ⟨22, none⟩ ∧
    (∃ s1, FreeList.Put tCfg (St.mk ⟨some 1, true, 8⟩ tMem 0) 2 = .ok (s1, ()) ∧
      s1.fl.free = some 2 ∧
      s1.mem.heap 2 = some ⟨22, some 1⟩ ∧
      (∀ b, b ≠ 2 → s1.mem.heap b = (St.mk ⟨some 1, true, 8⟩ tMem 0).mem.heap b) ∧
      s1.fl.initDone = (St.mk ⟨some 1, true, 8⟩ tMem 0).fl.initDone ∧
      s1.fl.next = (St.mk ⟨some 1, true, 8⟩ tMem 0).fl.next ∧
      s1.newCount = (St.mk ⟨some 1, true, 8⟩ tMem 0).newCount ∧
      s1.mem.nextAddr = (St.mk ⟨some 1, true, 8⟩ tMem 0).mem.nextAddr ∧
      (∀ cfg2 : Config Nat, cfg2.L = tCfg.L →
        FreeList.Put cfg2 (St.mk ⟨some 1, true, 8⟩ tMem 0) 2 =
        FreeList.Put tCfg (St.mk ⟨some 1, true, 8⟩ tMem 0) 2)) :=
  ⟨rfl, by decide, rfl,
   claim_C5 tCfg (St.mk ⟨some 1, true, 8⟩ tMem 0) 2 ⟨22, none⟩ rfl (by decide) rfl⟩

/-- Claim C8: when the `Resetter` panics during `Get`'s reuse branch, the
panic propagates to the caller (`hookPanic`), the heap is unchanged, and
the head had already advanced to the unlinked element's successor before
the hook ran, so any chain hanging off that successor is intact. -/
theorem claim_C8 (cfg : Config P) (s : St P) (x : Addr) (o : Obj P)
    (r : Obj P → Option (Obj P))
    (hwf : resolveNext cfg.ety = some cfg.L.nextOff)
    (hg : goodFL cfg s)
    (hfree : s.fl.free = some x)
    (hx : s.mem.heap x = some o)
    (hres : cfg.Reset = some r)
    (hro : r o = none) :
    ∃ s1, FreeList.Get cfg s = .error (.hookPanic, s1) ∧
      s1.mem = s.mem ∧
      s1.fl.free = o.next ∧
      (∀ (ys : List Addr) (rest : Ptr),
        ChainSeg s.mem o.next ys rest → ChainSeg s1.mem s1.fl.free ys rest) := by
  refine ⟨_, FreeList.Get_reuse_reset_panic cfg s x o r hwf hg hfree hx hres hro,
         rfl, rfl, ?_⟩
  intro ys rest hcs
  exact hcs

/-- Witness for C8: the always-panicking resetter on the one-element
chain. -/
theorem claim_C8_witness :
    resolveNext tCfgPanic.ety = some tCfgPanic.L.nextOff ∧
    goodFL tCfgPanic tStChain ∧
    tStChain.fl.free = some 1 ∧
    tStChain.mem.heap 1 = some ⟨11, none⟩ ∧
    tCfgPanic.Reset = some tResetPanic ∧
    tResetPanic ⟨11, none⟩ = none ∧
    (∃ s1, FreeList.Get tCfgPanic tStChain = .error (.hookPanic, s1) ∧
      s1.mem = tStChain.mem ∧
      s1.fl.free = (Obj.mk 11 none : Obj Nat).next ∧
      (∀ (ys : List Addr) (rest : Ptr),
        ChainSeg tStChain.mem (Obj.mk 11 none : Obj Nat).next ys rest →
        ChainSeg s1.mem s1.fl.free ys rest)) :=
  ⟨by decide, by intro h; exact absurd h (by decide), rfl, rfl, rfl, rfl,
   claim_C8 tCfgPanic tStChain 1 ⟨11, none⟩ tResetPanic (by decide) (by intro h; exact absurd h (by decide)) rfl rfl rfl rfl⟩

/-- Claim C9: a `Get` from the non-empty list of a pool with no `Resetter`
returns the old head without touching the heap at all; in particular the
returned element's `next` field is not cleared — it still points at the
new head of the idle chain. -/
theorem claim_C9 (cfg : Config P) (s : St P) (x : Addr) (o : Obj P)
    (hwf : resolveNext cfg.ety = some cfg.L.nextOff)
    (hg : goodFL cfg s)
    (hfree : s.fl.free = some x)
    (hx : s.mem.heap x = some o)
    (hres : cfg.Reset = none) :
    ∃ s1, FreeList.Get cfg s = .ok (s1, (some x, [])) ∧
      s1.mem = s.mem ∧
      s1.mem.heap x = some o ∧
      s1.fl.free = o.next :=
  ⟨_, FreeList.Get_reuse_noreset cfg s x o hwf hg hfree hx hres, rfl, hx, rfl⟩

/-- Witness for C9: getting address 1 back from the hook-free pool leaves
its `next` field equal to the new head (here `nil`). -/
theorem claim_C9_witness :
    resolveNext tCfg.ety = some tCfg.L.nextOff ∧
    goodFL tCfg tStChain ∧
    tStChain.fl.free = some 1 ∧
    tStChain.mem.heap 1 = some ⟨11, none⟩ ∧
    tCfg.Reset = none ∧
    (∃ s1, FreeList.Get tCfg tStChain = .ok (s1, (some 1, [])) ∧
      s1.mem = tStChain.mem ∧
      s1.mem.heap 1 = some ⟨11, none⟩ ∧
      s1.fl.free = (Obj.mk 11 none : Obj Nat).next) :=
  ⟨by decide, by intro h; exact absurd h (by decide), rfl, rfl, rfl,
   claim_C9 tCfg tStChain 1 ⟨11, none⟩ (by decide) (by intro h; exact absurd h (by decide)) rfl rfl rfl⟩

theorem FreeList.Put_bad_offset (cfg : Config P) (s : St P) (x : Addr) (o : Obj P)
    (hdone : s.fl.initDone = true) (ho : s.mem.heap x = some o)
    (hne : s.fl.next ≠ cfg.L.nextOff) :
    FreeList.Put cfg s x = .error (.badAccess, s) := by
  unfold FreeList.Put
  rw [FreeList.init_done cfg s.fl hdone]
  simp [writePtrAt, ho, hne]

theorem FreeList.Get_bad_offset (cfg : Config P) (s : St P) (x : Addr) (o : Obj P)
    (hdone : s.fl.initDone = true) (hfree : s.fl.free = some x)
    (ho : s.mem.heap x = some o)
    (hne : s.fl.next ≠ cfg.L.nextOff) :
    FreeList.Get cfg s = .error (.badAccess, s) := by
  unfold FreeList.Get
  rw [FreeList.init_done cfg s.fl hdone]
  simp [hfree, readPtrAt, ho, hne]

theorem FreeList.Put_done_ok (cfg : Config P) (s : St P) (x : Addr) (o : Obj P)
    (hdone : s.fl.initDone = true) (ho : s.mem.heap x = some o)
    (heq : s.fl.next = cfg.L.nextOff) :
    FreeList.Put cfg s x =
      .ok ({ s with
              mem := s.mem.update x { o with next := s.fl.free },
              fl := { s.fl with free := some x } }, ()) := by
  unfold FreeList.Put
  rw [FreeList.init_done cfg s.fl hdone]
  simp [writePtrAt, ho, heq]

theorem FreeList.Get_done_noreset_ok (cfg : Config P) (s : St P) (x : Addr) (o : Obj P)
    (hdone : s.fl.initDone = true) (hfree : s.fl.free = some x)
    (ho : s.mem.heap x = some o)
    (heq : s.fl.next = cfg.L.nextOff)
    (hres : cfg.Reset = none) :
    FreeList.Get cfg s =
      .ok ({ s with fl := { s.fl with free := o.next } }, (some x, [])) := by
  unfold FreeList.Get
  rw [FreeList.init_done cfg s.fl hdone]
  simp [hfree, readPtrAt, ho, heq, hres]

/-! ### The promoted lookup: depth bound, search characterization,
agreement with the flat model -/

theorem GoFieldT.size_pos (f : GoFieldT) : 1 ≤ f.size := by
  cases f with
  | mk n t o a =>
    show 1 ≤ 1 + GoTy.size t
    omega

theorem GoTy.sizeFields_pos (fs : List GoFieldT) (h : fs ≠ []) :
    0 < GoTy.sizeFields fs := by
  cases fs with
  | nil => exact absurd rfl h
  | cons f fs =>
    have := f.size_pos
    show 0 < GoFieldT.size f + GoTy.sizeFields fs
    omega

theorem GoTy.size_le_of_mem {f : GoFieldT} :
    ∀ {fs : List GoFieldT}, f ∈ fs → GoFieldT.size f ≤ GoTy.sizeFields fs := by
  intro fs
  induction fs with
  | nil => intro h; cases h
  | cons g gs ih =>
    intro h
    rcases List.mem_cons.mp h with heq | h2
    · subst heq
      show GoFieldT.size f ≤ GoFieldT.size f + GoTy.sizeFields gs
      omega
    · have := ih h2
      show GoFieldT.size f ≤ GoFieldT.size g + GoTy.sizeFields gs
      omega

theorem embeddedStructs_size {gs fs : List GoFieldT}
    (h : gs ∈ embeddedStructs fs) :
    GoTy.sizeFields gs + 2 ≤ GoTy.sizeFields fs := by
  obtain ⟨f, hf, hfg⟩ := List.mem_filterMap.mp h
  have hsz := GoTy.size_le_of_mem hf
  cases f with
  | mk nm t o a =>
    by_cases ha : a = true
    · subst ha
      cases t with
      | prim m => simp [GoFieldT.anon, GoFieldT.fty] at hfg
      | ptrTo m => simp [GoFieldT.anon, GoFieldT.fty] at hfg
      | strct m gs2 =>
        have hg2 : gs2 = gs := by
          simpa [GoFieldT.anon, GoFieldT.fty] using hfg
        have hs : GoFieldT.size (GoFieldT.mk nm (GoTy.strct m gs2) o true) =
            2 + GoTy.sizeFields gs2 := by
          show 1 + GoTy.size (GoTy.strct m gs2) = 2 + GoTy.sizeFields gs2
          show 1 + (1 + GoTy.sizeFields gs2) = 2 + GoTy.sizeFields gs2
          omega
        rw [hg2] at hs hsz
        omega
    · simp [GoFieldT.anon, ha] at hfg

theorem fieldsAtDepth_lt_size :
    ∀ (d : Nat) (fs : List GoFieldT), fieldsAtDepth d fs ≠ [] →
    d < GoTy.sizeFields fs := by
  intro d
  induction d with
  | zero =>
    intro fs h
    exact GoTy.sizeFields_pos fs (by simpa [fieldsAtDepth] using h)
  | succ d ih =>
    intro fs h
    simp only [fieldsAtDepth] at h
    have hex : ∃ l ∈ (embeddedStructs fs).map (fieldsAtDepth d), l ≠ [] := by
      by_contra hall
      push_neg at hall
      exact h (List.flatten_eq_nil_iff.mpr hall)
    obtain ⟨l, hl, hlne⟩ := hex
    obtain ⟨gs, hgs, rfl⟩ := List.mem_map.mp hl
    have h1 := ih gs hlne
    have h2 := embeddedStructs_size hgs
    omega

theorem promotedSearch_found (fs : List GoFieldT) (n : String) (f : GoFieldT) (d : Nat) :
    ∀ (fuel start : Nat), start ≤ d → d < start + fuel →
    matchesAt fs n d = [f] →
    (∀ d2, start ≤ d2 → d2 < d → matchesAt fs n d2 = []) →
    promotedSearch fs n start fuel = some f := by
  intro fuel
  induction fuel with
  | zero => intro start h1 h2 _ _; omega
  | succ fuel ih =>
    intro start h1 h2 hm hb
    by_cases hsd : start = d
    · subst hsd
      simp only [promotedSearch, hm]
    · have hlt : start < d := lt_of_le_of_ne h1 hsd
      have hemp : matchesAt fs n start = [] := hb start le_rfl hlt
      simp only [promotedSearch, hemp]
      exact ih (start + 1) hlt (by omega) hm (fun d2 ha hbb => hb d2 (by omega) hbb)

theorem promotedSearch_cancel (fs : List GoFieldT) (n : String)
    (f g : GoFieldT) (rest : List GoFieldT) (d : Nat) :
    ∀ (fuel start : Nat), start ≤ d →
    matchesAt fs n d = f :: g :: rest →
    (∀ d2, start ≤ d2 → d2 < d → matchesAt fs n d2 = []) →
    promotedSearch fs n start fuel = none := by
  intro fuel
  induction fuel with
  | zero => intro start _ _ _; rfl
  | succ fuel ih =>
    intro start h1 hm hb
    by_cases hsd : start = d
    · subst hsd
      simp only [promotedSearch, hm]
    · have hlt : start < d := lt_of_le_of_ne h1 hsd
      have hemp : matchesAt fs n start = [] := hb start le_rfl hlt
      simp only [promotedSearch, hemp]
      exact ih (start + 1) hlt hm (fun d2 ha hbb => hb d2 (by omega) hbb)

theorem promotedSearch_no_match (fs : List GoFieldT) (n : String) :
    ∀ (fuel start : Nat),
    (∀ d2, start ≤ d2 → matchesAt fs n d2 = []) →
    promotedSearch fs n start fuel = none := by
  intro fuel
  induction fuel with
  | zero => intro start _; rfl
  | succ fuel ih =>
    intro start hall
    have hemp := hall start le_rfl
    simp only [promotedSearch, hemp]
    exact ih (start + 1) (fun d2 h => hall d2 (by omega))

theorem embeddedStructs_toGoFieldT (fs : List GoField) :
    embeddedStructs (fs.map GoField.toGoFieldT) = [] := by
  induction fs with
  | nil => rfl
  | cons f fs ih =>
    rw [List.map_cons]
    simp only [embeddedStructs, List.filterMap_cons, GoField.toGoFieldT,
               GoFieldT.anon, Bool.false_eq_true, if_false]
    simpa [embeddedStructs] using ih

theorem matchesAt_toGoFieldT (fs : List GoField) (n : String) :
    ∀ d : Nat, 1 ≤ d → matchesAt (fs.map GoField.toGoFieldT) n d = [] := by
  intro d hd
  cases d with
  | zero => omega
  | succ d =>
    simp [matchesAt, fieldsAtDepth, embeddedStructs_toGoFieldT fs]

theorem resolveNextG_toGoTy (e : ETy) : resolveNextG e.toGoTy = resolveNext e := by
  cases e with
  | nonStruct n => rfl
  | strct n fs =>
    show resolveNextG (GoTy.strct n (fs.map GoField.toGoFieldT)) =
      resolveNext (ETy.strct n fs)
    simp only [resolveNextG, resolveNext, fieldByNameG, fieldByName]
    rw [List.find?_map]
    have hpred : fs.find?
        ((fun f => decide (GoFieldT.fname f = "next")) ∘ GoField.toGoFieldT) =
        fs.find? (fun f => decide (GoField.fname f = "next")) := rfl
    rw [hpred]
    rcases hf : fs.find? (fun f => decide (GoField.fname f = "next")) with _ | f
    · simp [promotedSearch_no_match (fs.map GoField.toGoFieldT) "next"
              (GoTy.sizeFields (fs.map GoField.toGoFieldT)) 1
              (matchesAt_toGoFieldT fs "next")]
    · cases hft : f.fty with
      | prim m =>
        simp [GoField.toGoFieldT, GoFieldT.fty, GoFieldT.off, FTy.toGoTy,
              GoTy.isPtrTo, hft]
      | ptrTo t =>
        by_cases htn : t = n
        · subst htn
          simp [GoField.toGoFieldT, GoFieldT.fty, GoFieldT.off, FTy.toGoTy,
                GoTy.isPtrTo, hft]
        · simp [GoField.toGoFieldT, GoFieldT.fty, GoFieldT.off, FTy.toGoTy,
                GoTy.isPtrTo, hft, htn]

/-- Claim C4 counterexample: with `type H struct \x7b next *T \x7d` value-embedded
in `type T struct \x7b A int; H \x7d`, `T` has no field literally named `next`
(the original claim then requires resolution to fail), yet resolution
succeeds via the promoted field — and it records offset 0, the offset of
`next` within `H`, not 8, the field's byte offset within `T` (8 for the
embedded `H` plus 0 inside it). -/
theorem claim_C4_counterexample :
    embFields.find? (fun f => f.fname = "next") = none ∧
    resolveNextG embTy = some 0 ∧
    resolveNextG embTy ≠ some 8 :=
  ⟨rfl, rfl, by decide⟩

/-- Claim C4 (amended): linkage resolution follows `reflect.FieldByName`.
It fails on non-struct kinds.  A direct field named `next` wins: with
distinct direct names, resolution succeeds exactly when some direct field
is named `next` and its declared type is exactly
pointer-to-the-element-type, recording its byte offset.  With no direct
field named `next`, the search continues through value-embedded structs
breadth-first: a unique promoted field named `next` at the shallowest
depth with matches is used — so resolution can succeed although `E` has no
literal `next` field of its own, and the offset recorded is then the
promoted field's offset within its immediate embedding struct, not within
`E` (`claim_C4_counterexample`); two or more candidates at that depth
cancel and resolution fails, as does the absence of candidates at every
depth.  On flat structs the faithful lookup agrees with the flat
`resolveNext` the other claims use.  On success `init` caches the offset,
and `Get` and `Put` subsequently access memory through the cached offset:
with any other cached offset they fault instead of reaching the `next`
field. -/
theorem claim_C4 :
    (∀ n : String, resolveNextG (GoTy.prim n) = none ∧
       resolveNextG (GoTy.ptrTo n) = none) ∧
    (∀ (name : String) (fs : List GoFieldT) (off : Nat),
       (fs.map GoFieldT.fname).Nodup →
       (∃ f ∈ fs, f.fname = "next") →
       (resolveNextG (GoTy.strct name fs) = some off ↔
         ∃ f ∈ fs, f.fname = "next" ∧ f.fty.isPtrTo name = true ∧ f.off = off)) ∧
    (∀ (name : String) (fs : List GoFieldT) (f : GoFieldT) (d : Nat) (off : Nat),
       fs.find? (fun g => g.fname = "next") = none →
       1 ≤ d → matchesAt fs "next" d = [f] →
       (∀ d2, 1 ≤ d2 → d2 < d → matchesAt fs "next" d2 = []) →
       (resolveNextG (GoTy.strct name fs) = some off ↔
         f.fty.isPtrTo name = true ∧ f.off = off)) ∧
    (∀ (name : String) (fs : List GoFieldT) (f g : GoFieldT)
       (rest : List GoFieldT) (d : Nat),
       fs.find? (fun h2 => h2.fname = "next") = none →
       1 ≤ d → matchesAt fs "next" d = f :: g :: rest →
       (∀ d2, 1 ≤ d2 → d2 < d → matchesAt fs "next" d2 = []) →
       resolveNextG (GoTy.strct name fs) = none) ∧
    (∀ (name : String) (fs : List GoFieldT),
       fs.find? (fun g => g.fname = "next") = none →
       (∀ d2, 1 ≤ d2 → matchesAt fs "next" d2 = []) →
       resolveNextG (GoTy.strct name fs) = none) ∧
    (∀ e : ETy, resolveNextG e.toGoTy = resolveNext e) ∧
    (∀ (P : Type) (cfg : Config P) (l : FreeList) (off : Nat),
       l.initDone = false → resolveNextG cfg.ety.toGoTy = some off →
       l.init cfg = ({ l with initDone := true, next := off }, none)) ∧
    (∀ (P : Type) (cfg : Config P) (s : St P) (x : Addr),
       s.fl.initDone = true → (s.mem.heap x).isSome →
       ((∃ s1, FreeList.Put cfg s x = Except.ok (s1, ())) ↔
         s.fl.next = cfg.L.nextOff)) ∧
    (∀ (P : Type) (cfg : Config P) (s : St P) (x : Addr),
       s.fl.initDone = true → s.fl.free = some x → (s.mem.heap x).isSome →
       cfg.Reset = none →
       ((∃ s1 out, FreeList.Get cfg s = Except.ok (s1, out)) ↔
         s.fl.next = cfg.L.nextOff)) := by
  refine ⟨fun n => ⟨rfl, rfl⟩, ?_, ?_, ?_, ?_, resolveNextG_toGoTy, ?_, ?_, ?_⟩
  · intro name fs off hnd hex
    unfold resolveNextG fieldByNameG
    rcases hfind : fs.find? (fun g => g.fname = "next") with _ | f
    · rw [List.find?_eq_none] at hfind
      obtain ⟨f0, hf0, hf0n⟩ := hex
      exact absurd (decide_eq_true hf0n) (hfind f0 hf0)
    · simp only [hfind]
      have hfmem : f ∈ fs := List.mem_of_find?_eq_some hfind
      have hfname : f.fname = "next" := by simpa using List.find?_some hfind
      by_cases hty : f.fty.isPtrTo name = true
      · rw [if_pos hty]
        constructor
        · intro h
          obtain rfl : f.off = off := by simpa using h
          exact ⟨f, hfmem, hfname, hty, rfl⟩
        · rintro ⟨g, hg, hgn, hgt, hoff⟩
          have hgf : g = f :=
            List.inj_on_of_nodup_map hnd hg hfmem (by rw [hgn, hfname])
          subst hgf
          rw [hoff]
      · rw [if_neg hty]
        constructor
        · intro h; simp at h
        · rintro ⟨g, hg, hgn, hgt, -⟩
          have hgf : g = f :=
            List.inj_on_of_nodup_map hnd hg hfmem (by rw [hgn, hfname])
          exact absurd (hgf ▸ hgt) hty
  · intro name fs f d off hdir hd hm hb
    have hfuel : d < 1 + GoTy.sizeFields fs := by
      have hne : fieldsAtDepth d fs ≠ [] := by
        intro hnil
        rw [matchesAt, hnil] at hm
        exact absurd hm (by simp)
      have := fieldsAtDepth_lt_size d fs hne
      omega
    unfold resolveNextG fieldByNameG
    simp only [hdir,
      promotedSearch_found fs "next" f d (GoTy.sizeFields fs) 1 hd hfuel hm hb]
    by_cases hty : f.fty.isPtrTo name = true <;> simp [hty]
  · intro name fs f g rest d hdir hd hm hb
    unfold resolveNextG fieldByNameG
    simp only [hdir,
      promotedSearch_cancel fs "next" f g rest d (GoTy.sizeFields fs) 1 hd hm hb]
  · intro name fs hdir hall
    unfold resolveNextG fieldByNameG
    simp only [hdir,
      promotedSearch_no_match fs "next" (GoTy.sizeFields fs) 1
        (fun d2 h => hall d2 h)]
  · intro P cfg l off hfresh hwf
    rw [resolveNextG_toGoTy] at hwf
    simp [FreeList.init, hfresh, hwf]
  · intro P cfg s x hdone hx
    obtain ⟨o, ho⟩ := Option.isSome_iff_exists.mp hx
    constructor
    · rintro ⟨s1, hput⟩
      by_contra hne
      rw [FreeList.Put_bad_offset cfg s x o hdone ho hne] at hput
      exact absurd hput (by simp)
    · intro heq
      exact ⟨_, FreeList.Put_done_ok cfg s x o hdone ho heq⟩
  · intro P cfg s x hdone hfree hx hres
    obtain ⟨o, ho⟩ := Option.isSome_iff_exists.mp hx
    constructor
    · rintro ⟨s1, out, hget⟩
      by_contra hne
      rw [FreeList.Get_bad_offset cfg s x o hdone hfree ho hne] at hget
      exact absurd hget (by simp)
    · intro heq
      exact ⟨_, _, FreeList.Get_done_noreset_ok cfg s x o hdone hfree ho heq hres⟩

/-- Witness for C4: each conjunct at a concrete input — the non-struct
kind fails; the flat type `T` (direct `next *T` at offset 8) resolves to
8; the embedded type resolves to the promoted field's inner offset 0; the
two-candidate type fails; a flat struct without `next` fails; the flat and
faithful lookups agree on the test type; `init` caches offset 8; and with
the correct cached offset `Put`/`Get` succeed at address 1 of the concrete
heap. -/
theorem claim_C4_witness :
    (resolveNextG (GoTy.prim "NotStruct") = none ∧
     resolveNextG (GoTy.ptrTo "NotStruct") = none) ∧
    (tFieldsG.map GoFieldT.fname).Nodup ∧
    (∃ f ∈ tFieldsG, f.fname = "next") ∧
    (resolveNextG (GoTy.strct "T" tFieldsG) = some 8 ↔
      ∃ f ∈ tFieldsG, f.fname = "next" ∧ f.fty.isPtrTo "T" = true ∧ f.off = 8) ∧
    embFields.find? (fun g => g.fname = "next") = none ∧
    matchesAt embFields "next" 1 = [GoFieldT.mk "next" (GoTy.ptrTo "T") 0 false] ∧
    (resolveNextG (GoTy.strct "T" embFields) = some 0 ↔
      (GoFieldT.mk "next" (GoTy.ptrTo "T") 0 false).fty.isPtrTo "T" = true ∧
      (GoFieldT.mk "next" (GoTy.ptrTo "T") 0 false).off = 0) ∧
    tieFields.find? (fun h2 => h2.fname = "next") = none ∧
    matchesAt tieFields "next" 1 =
      GoFieldT.mk "next" (GoTy.ptrTo "T2") 0 false ::
      GoFieldT.mk "next" (GoTy.ptrTo "T2") 0 false :: [] ∧
    resolveNextG tieTy = none ∧
    noNextFields.find? (fun g => g.fname = "next") = none ∧
    resolveNextG (GoTy.strct "S" noNextFields) = none ∧
    resolveNextG tETy.toGoTy = resolveNext tETy ∧
    (FreeList.mk none false 0).initDone = false ∧
    resolveNextG tCfg.ety.toGoTy = some 8 ∧
    (FreeList.mk none false 0).init tCfg = (⟨none, true, 8⟩, none) ∧
    (St.mk ⟨none, true, 8⟩ tMem 0).fl.initDone = true ∧
    ((St.mk ⟨none, true, 8⟩ tMem 0).mem.heap 1).isSome ∧
    ((∃ s1, FreeList.Put tCfg (St.mk ⟨none, true, 8⟩ tMem 0) 1 = Except.ok (s1, ())) ↔
      (St.mk ⟨none, true, 8⟩ tMem 0).fl.next = tCfg.L.nextOff) ∧
    (St.mk ⟨some 1, true, 8⟩ tMem 0).fl.free = some 1 ∧
    ((∃ s1 out, FreeList.Get tCfg (St.mk ⟨some 1, true, 8⟩ tMem 0) = Except.ok (s1, out)) ↔
      (St.mk ⟨some 1, true, 8⟩ tMem 0).fl.next = tCfg.L.nextOff) :=
  ⟨claim_C4.1 "NotStruct",
   by decide,
   by decide,
   claim_C4.2.1 "T" tFieldsG 8 (by decide) (by decide),
   rfl,
   rfl,
   claim_C4.2.2.1 "T" embFields (GoFieldT.mk "next" (GoTy.ptrTo "T") 0 false) 1 0
     rfl le_rfl rfl (by intro d2 h1 h2; omega),
   rfl,
   rfl,
   claim_C4.2.2.2.1 "T2" tieFields (GoFieldT.mk "next" (GoTy.ptrTo "T2") 0 false)
     (GoFieldT.mk "next" (GoTy.ptrTo "T2") 0 false) [] 1
     rfl le_rfl rfl (by intro d2 h1 h2; omega),
   rfl,
   claim_C4.2.2.2.2.1 "S" noNextFields rfl
     (matchesAt_toGoFieldT [⟨"A", FTy.prim "int", 0⟩] "next"),
   claim_C4.2.2.2.2.2.1 tETy,
   rfl,
   by decide,
   claim_C4.2.2.2.2.2.2.1 Nat tCfg ⟨none, false, 0⟩ 8 rfl (by decide),
   rfl,
   by decide,
   claim_C4.2.2.2.2.2.2.2.1 Nat tCfg (St.mk ⟨none, true, 8⟩ tMem 0) 1 rfl (by decide),
   rfl,
   claim_C4.2.2.2.2.2.2.2.2 Nat tCfg (St.mk ⟨some 1, true, 8⟩ tMem 0) 1 rfl rfl
     (by decide) rfl⟩


theorem FreeList.Get_post_initDone (cfg : Config P) (s : St P)
    (hdone : s.fl.initDone = true) :
    (postState (FreeList.Get cfg s)).fl.initDone = true ∧
    (postState (FreeList.Get cfg s)).fl.next = s.fl.next := by
  unfold FreeList.Get
  rw [FreeList.init_done cfg s.fl hdone]
  rcases hfree : s.fl.free with _ | x
  · rcases hNew : cfg.New with _ | mkNew
    · simp [hfree, hNew, postState, hdone]
    · simp [hfree, hNew, postState, hdone]
  · rcases hro : readPtrAt cfg.L s.mem x s.fl.next with _ | p
    · simp [hfree, hro, postState, hdone]
    · rcases hres : cfg.Reset with _ | r
      · simp [hfree, hro, hres, postState, hdone]
      · rcases hx : s.mem.heap x with _ | o
        · simp [hfree, hro, hres, hx, postState, hdone]
        · rcases hrr : r o with _ | o2
          · simp [hfree, hro, hres, hx, hrr, postState, hdone]
          · simp [hfree, hro, hres, hx, hrr, postState, hdone]

theorem FreeList.Put_post_initDone (cfg : Config P) (s : St P) (x : Addr)
    (hdone : s.fl.initDone = true) :
    (postState (FreeList.Put cfg s x)).fl.initDone = true ∧
    (postState (FreeList.Put cfg s x)).fl.next = s.fl.next := by
  unfold FreeList.Put
  rw [FreeList.init_done cfg s.fl hdone]
  rcases hw : writePtrAt cfg.L s.mem x s.fl.next s.fl.free with _ | m
  · simp [hw, postState, hdone]
  · simp [hw, postState, hdone]

theorem FreeList.Get_post_fresh (cfg : Config P) (s : St P) (off : Nat)
    (hfresh : s.fl.initDone = false) (hwf : resolveNext cfg.ety = some off) :
    (postState (FreeList.Get cfg s)).fl.initDone = true ∧
    (postState (FreeList.Get cfg s)).fl.next = off := by
  have hinit : s.fl.init cfg = ({ s.fl with initDone := true, next := off }, none) := by
    simp [FreeList.init, hfresh, hwf]
  unfold FreeList.Get
  rw [hinit]
  rcases hfree : s.fl.free with _ | x
  · rcases hNew : cfg.New with _ | mkNew
    · simp [hfree, hNew, postState]
    · simp [hfree, hNew, postState]
  · rcases hro : readPtrAt cfg.L s.mem x off with _ | p
    · simp [hfree, hro, postState]
    · rcases hres : cfg.Reset with _ | r
      · simp [hfree, hro, hres, postState]
      · rcases hx : s.mem.heap x with _ | o
        · simp [hfree, hro, hres, hx, postState]
        · rcases hrr : r o with _ | o2
          · simp [hfree, hro, hres, hx, hrr, postState]
          · simp [hfree, hro, hres, hx, hrr, postState]

theorem FreeList.Put_post_fresh (cfg : Config P) (s : St P) (x : Addr) (off : Nat)
    (hfresh : s.fl.initDone = false) (hwf : resolveNext cfg.ety = some off) :
    (postState (FreeList.Put cfg s x)).fl.initDone = true ∧
    (postState (FreeList.Put cfg s x)).fl.next = off := by
  have hinit : s.fl.init cfg = ({ s.fl with initDone := true, next := off }, none) := by
    simp [FreeList.init, hfresh, hwf]
  unfold FreeList.Put
  rw [hinit]
  rcases hw : writePtrAt cfg.L s.mem x off s.fl.free with _ | m
  · simp [hw, postState]
  · simp [hw, postState]

theorem stepFL_post_initDone (cfg : Config P) (s : St P) (op : Op)
    (hdone : s.fl.initDone = true) :
    (postState (stepFL cfg s op)).fl.initDone = true ∧
    (postState (stepFL cfg s op)).fl.next = s.fl.next := by
  cases op with
  | get => exact FreeList.Get_post_initDone cfg s hdone
  | put x =>
    have h := FreeList.Put_post_initDone cfg s x hdone
    rcases hput : FreeList.Put cfg s x with e | ⟨s2, u⟩
    · rw [hput] at h
      simpa [stepFL, hput, postState] using h
    · rw [hput] at h
      simpa [stepFL, hput, postState] using h

theorem stepFL_post_fresh (cfg : Config P) (s : St P) (op : Op) (off : Nat)
    (hfresh : s.fl.initDone = false) (hwf : resolveNext cfg.ety = some off) :
    (postState (stepFL cfg s op)).fl.initDone = true ∧
    (postState (stepFL cfg s op)).fl.next = off := by
  cases op with
  | get => exact FreeList.Get_post_fresh cfg s off hfresh hwf
  | put x =>
    have h := FreeList.Put_post_fresh cfg s x off hfresh hwf
    rcases hput : FreeList.Put cfg s x with e | ⟨s2, u⟩
    · rw [hput] at h
      simpa [stepFL, hput, postState] using h
    · rw [hput] at h
      simpa [stepFL, hput, postState] using h

theorem runFL_post_initDone (cfg : Config P) :
    ∀ (ops : List Op) (s : St P), s.fl.initDone = true →
    (postState (runFL cfg s ops)).fl.initDone = true ∧
    (postState (runFL cfg s ops)).fl.next = s.fl.next := by
  intro ops
  induction ops with
  | nil => intro s h; simp [runFL, postState, h]
  | cons op ops ih =>
    intro s h
    have hstep := stepFL_post_initDone cfg s op h
    rcases hs : stepFL cfg s op with e | ⟨s2, out⟩
    · rw [hs] at hstep
      simpa [runFL, hs, postState] using hstep
    · rw [hs] at hstep
      simp only [postState] at hstep
      have hrun := ih s2 hstep.1
      rcases hr : runFL cfg s2 ops with e2 | ⟨s3, outs⟩
      · rw [hr] at hrun
        simp only [postState] at hrun
        simp [runFL, hs, hr, postState, hrun.1, hrun.2, hstep.2]
      · rw [hr] at hrun
        simp only [postState] at hrun
        simp [runFL, hs, hr, postState, hrun.1, hrun.2, hstep.2]

/-- Claim C6: the linkage offset is computed at most once per pool — on
the first `Get` or `Put`, whatever its outcome — and never changes
afterwards: any single operation on an unresolved pool leaves it resolved
with the offset `resolveNext` computes (so resolution precedes any chain
manipulation), and any sequence of operations on a resolved pool preserves
the cached offset without re-resolution. -/
theorem claim_C6 (cfg : Config P) (off : Nat)
    (hwf : resolveNext cfg.ety = some off) :
    (∀ (s : St P) (op : Op), s.fl.initDone = false →
       (postState (stepFL cfg s op)).fl.initDone = true ∧
       (postState (stepFL cfg s op)).fl.next = off) ∧
    (∀ (s : St P) (ops : List Op), s.fl.initDone = true →
       (postState (runFL cfg s ops)).fl.initDone = true ∧
       (postState (runFL cfg s ops)).fl.next = s.fl.next) := by
  constructor
  · intro s op hfresh
    exact stepFL_post_fresh cfg s op off hfresh hwf
  · intro s ops hdone
    exact runFL_post_initDone cfg ops s hdone

/-- Witness for C6: on the fresh concrete pool the first operation caches
offset 8; afterwards a `get`-`put`-`get` sequence keeps it at 8. -/
theorem claim_C6_witness :
    resolveNext tCfg.ety = some 8 ∧
    tSt.fl.initDone = false ∧
    ((postState (stepFL tCfg tSt Op.get)).fl.initDone = true ∧
     (postState (stepFL tCfg tSt Op.get)).fl.next = 8) ∧
    (St.mk ⟨some 1, true, 8⟩ tMem 0).fl.initDone = true ∧
    ((postState (runFL tCfg (St.mk ⟨some 1, true, 8⟩ tMem 0) [Op.get, Op.put 1, Op.get])).fl.initDone = true ∧
     (postState (runFL tCfg (St.mk ⟨some 1, true, 8⟩ tMem 0) [Op.get, Op.put 1, Op.get])).fl.next =
       (St.mk ⟨some 1, true, 8⟩ tMem 0).fl.next) :=
  ⟨by decide, rfl,
   (claim_C6 tCfg 8 (by decide)).1 tSt Op.get rfl,
   rfl,
   (claim_C6 tCfg 8 (by decide)).2 (St.mk ⟨some 1, true, 8⟩ tMem 0) [Op.get, Op.put 1, Op.get] rfl⟩

/-! ### Bulk operation lemmas for the LIFO property -/

theorem putList_spec (cfg : Config P)
    (hwf : resolveNext cfg.ety = some cfg.L.nextOff) :
    ∀ (xs : List Addr) (s : St P), goodFL cfg s →
    (∀ x ∈ xs, (s.mem.heap x).isSome) → xs.Nodup →
    ∃ s1, putList cfg s xs = .ok (s1, ()) ∧
      goodFL cfg s1 ∧
      ChainSeg s1.mem s1.fl.free xs.reverse s.fl.free ∧
      (∀ b, b ∉ xs → s1.mem.heap b = s.mem.heap b) ∧
      s1.newCount = s.newCount := by
  intro xs
  induction xs with
  | nil =>
    intro s hg _ _
    exact ⟨s, rfl, hg, .nil _, fun b _ => rfl, rfl⟩
  | cons x xs ih =>
    intro s hg halloc hnd
    obtain ⟨hx, hnd2⟩ := List.nodup_cons.mp hnd
    obtain ⟨o, ho⟩ := Option.isSome_iff_exists.mp (halloc x (List.mem_cons_self x xs))
    have hput := FreeList.Put_eq cfg s x o hwf hg ho
    have halloc2 : ∀ y ∈ xs,
        (((s.mem.update x { o with next := s.fl.free })).heap y).isSome := by
      intro y hy
      have hyx : y ≠ x := fun h => hx (h ▸ hy)
      rw [Mem.update_heap_ne s.mem x _ y hyx]
      exact halloc y (List.mem_cons_of_mem x hy)
    obtain ⟨s1, hrun, hg1, hch1, hag1, hcnt1⟩ :=
      ih ({ s with
             fl := { s.fl with initDone := true, next := cfg.L.nextOff, free := some x },
             mem := s.mem.update x { o with next := s.fl.free } })
         (fun _ => rfl) halloc2 hnd2
    refine ⟨s1, ?_, hg1, ?_, ?_, hcnt1⟩
    · simp [putList, hput, hrun]
    · have hx1 : s1.mem.heap x = some { o with next := s.fl.free } := by
        rw [hag1 x hx]
        exact Mem.update_heap_self s.mem x _
      have := hch1.append_one (x := x) (o := { o with next := s.fl.free }) rfl hx1
      simpa [List.reverse_cons] using this
    · intro b hb
      have hbx : b ≠ x := fun h => hb (h ▸ List.mem_cons_self x xs)
      have hbxs : b ∉ xs := fun h => hb (List.mem_cons_of_mem x h)
      rw [hag1 b hbxs]
      exact Mem.update_heap_ne s.mem x _ b hbx

theorem getList_spec (cfg : Config P)
    (hwf : resolveNext cfg.ety = some cfg.L.nextOff)
    (hres : resetOk cfg) :
    ∀ (ys : List Addr) (rest : Ptr) (s : St P), goodFL cfg s →
    ChainSeg s.mem s.fl.free ys rest → ys.Nodup →
    ∃ s1, getList cfg s ys.length = .ok (s1, ys.map some) ∧
      goodFL cfg s1 ∧ s1.fl.free = rest ∧
      (∀ b, b ∉ ys → s1.mem.heap b = s.mem.heap b) ∧
      s1.newCount = s.newCount := by
  intro ys
  induction ys with
  | nil =>
    intro rest s hg hch _
    exact ⟨s, rfl, hg, hch.nil_inv, fun b _ => rfl, rfl⟩
  | cons a ys ih =>
    intro rest s hg hch hnd
    obtain ⟨ha, hnd2⟩ := List.nodup_cons.mp hnd
    obtain ⟨hfree, o, ho, hch2⟩ := hch.cons_inv
    rcases hresq : cfg.Reset with _ | r
    · have hget := FreeList.Get_reuse_noreset cfg s a o hwf hg hfree ho hresq
      obtain ⟨s1, hrun, hg1, hfree1, hag1, hcnt1⟩ :=
        ih rest ({ s with
                    fl := { s.fl with initDone := true, next := cfg.L.nextOff, free := o.next } })
           (fun _ => rfl) hch2 hnd2
      refine ⟨s1, ?_, hg1, hfree1, ?_, hcnt1⟩
      · simp [getList, hget, hrun]
      · intro b hb
        exact hag1 b (fun h => hb (List.mem_cons_of_mem a h))
    · obtain ⟨o2, ho2⟩ := Option.isSome_iff_exists.mp (hres r hresq o)
      have hget := FreeList.Get_reuse_reset cfg s a o o2 r hwf hg hfree ho hresq ho2
      have hch3 : ChainSeg (s.mem.update a o2) o.next ys rest :=
        hch2.update_not_mem a o2 ha
      obtain ⟨s1, hrun, hg1, hfree1, hag1, hcnt1⟩ :=
        ih rest ({ s with
                    fl := { s.fl with initDone := true, next := cfg.L.nextOff, free := o.next },
                    mem := s.mem.update a o2 })
           (fun _ => rfl) hch3 hnd2
      refine ⟨s1, ?_, hg1, hfree1, ?_, hcnt1⟩
      · simp [getList, hget, hrun]
      · intro b hb
        have hba : b ≠ a := fun h => hb (h ▸ List.mem_cons_self a ys)
        have hbys : b ∉ ys := fun h => hb (List.mem_cons_of_mem a h)
        rw [hag1 b hbys]
        exact Mem.update_heap_ne s.mem a o2 b hba

theorem getList_snoc (cfg : Config P) :
    ∀ (n : Nat) (s : St P),
    getList cfg s (n + 1) =
      match getList cfg s n with
      | .error e => .error e
      | .ok (s1, ps) =>
        match FreeList.Get cfg s1 with
        | .error e => .error e
        | .ok (s2, (p, _)) => .ok (s2, ps ++ [p]) := by
  intro n
  induction n with
  | zero =>
    intro s
    rcases hget : FreeList.Get cfg s with e | ⟨s2, p, evs⟩
    · simp [getList, hget]
    · simp [getList, hget]
  | succ n ih =>
    intro s
    have hL : ∀ (t : St P) (m : Nat), getList cfg t (m + 1) =
        match FreeList.Get cfg t with
        | .error e => .error e
        | .ok (s2, (p, _)) =>
          match getList cfg s2 m with
          | .error e => .error e
          | .ok (s3, ps) => .ok (s3, p :: ps) := fun _ _ => rfl
    rw [hL s (n + 1)]
    conv_rhs => rw [hL s n]
    rcases hget : FreeList.Get cfg s with e | ⟨s2, p, evs⟩
    · simp
    · dsimp only
      rw [ih s2]
      rcases hrest : getList cfg s2 n with e2 | ⟨s3, ps⟩
      · simp [hrest]
      · rcases hlast : FreeList.Get cfg s3 with e3 | ⟨s4, q, evs2⟩
        · simp [hrest, hlast]
        · simp [hrest, hlast]

/-- Claim C1: on a pool with no `New` factory and an empty idle chain,
putting `n` distinct allocated elements and then getting `n + 1` times
returns exactly the elements in reverse `Put` order (LIFO / stack
discipline) followed by the `nil` result. -/
theorem claim_C1 (cfg : Config P) (s : St P) (xs : List Addr)
    (hwf : resolveNext cfg.ety = some cfg.L.nextOff)
    (hNew : cfg.New = none)
    (hres : resetOk cfg)
    (hg : goodFL cfg s)
    (hfree : s.fl.free = none)
    (halloc : ∀ x ∈ xs, (s.mem.heap x).isSome)
    (hnd : xs.Nodup) :
    ∃ s1 s2, putList cfg s xs = .ok (s1, ()) ∧
      getList cfg s1 (xs.length + 1) = .ok (s2, xs.reverse.map some ++ [none]) := by
  obtain ⟨s1, hput, hg1, hch, -, -⟩ := putList_spec cfg hwf xs s hg halloc hnd
  rw [hfree] at hch
  obtain ⟨s2, hget, hg2, hfree2, -, -⟩ :=
    getList_spec cfg hwf hres xs.reverse none s1 hg1 hch (List.nodup_reverse.mpr hnd)
  have hlast := FreeList.Get_empty_noNew cfg s2 hwf hg2 hfree2 hNew
  rw [List.length_reverse] at hget
  refine ⟨s1, { s2 with fl := { s2.fl with initDone := true, next := cfg.L.nextOff } },
         hput, ?_⟩
  rw [getList_snoc]
  simp only [hget, hlast]

/-- Witness for C1: putting addresses 1 and 2 into the empty concrete pool
and getting three times yields 2, then 1, then `nil`. -/
theorem claim_C1_witness :
    resolveNext tCfg.ety = some tCfg.L.nextOff ∧
    tCfg.New = none ∧
    resetOk tCfg ∧
    goodFL tCfg tSt ∧
    tSt.fl.free = none ∧
    (∀ x ∈ [1, 2], (tSt.mem.heap x).isSome) ∧
    ([1, 2] : List Addr).Nodup ∧
    (∃ s1 s2, putList tCfg tSt [1, 2] = .ok (s1, ()) ∧
      getList tCfg s1 (([1, 2] : List Addr).length + 1) =
        .ok (s2, ([1, 2] : List Addr).reverse.map some ++ [none])) :=
  ⟨by decide, rfl, by intro r h o; simp [tCfg] at h,
   by intro h; exact absurd h (by decide), rfl, by decide, by decide,
   claim_C1 tCfg tSt [1, 2] (by decide) rfl (by intro r h o; simp [tCfg] at h)
     (by intro h; exact absurd h (by decide)) rfl (by decide) (by decide)⟩

/-- Claim C7: under correct usage the idle chain is a finite, acyclic,
nil-terminated list of addresses, and this invariant is preserved by every
operation: `Put` of an allocated element not already in the chain extends
it at the head, and `Get` (reuse, factory, or empty) leaves the tail of
the chain. -/
theorem claim_C7 (cfg : Config P) (s : St P) (ys : List Addr)
    (hwf : resolveNext cfg.ety = some cfg.L.nextOff)
    (hres : resetOk cfg)
    (hg : goodFL cfg s)
    (hchain : Chain s.mem s.fl.free ys) :
    (∀ (x : Addr) (o : Obj P), s.mem.heap x = some o → x ∉ ys →
       ∃ s1, FreeList.Put cfg s x = .ok (s1, ()) ∧ goodFL cfg s1 ∧
         Chain s1.mem s1.fl.free (x :: ys)) ∧
    (∃ s1 out, FreeList.Get cfg s = .ok (s1, out) ∧ goodFL cfg s1 ∧
       Chain s1.mem s1.fl.free ys.tail) := by
  obtain ⟨hcs, hnd⟩ := hchain
  constructor
  · intro x o ho hx
    refine ⟨_, FreeList.Put_eq cfg s x o hwf hg ho, fun _ => rfl, ?_, ?_⟩
    · refine ChainSeg.cons (Mem.update_heap_self s.mem x _) ?_
      exact hcs.update_not_mem x _ hx
    · exact List.nodup_cons.mpr ⟨hx, hnd⟩
  · cases ys with
    | nil =>
      have hfree : s.fl.free = none := hcs.nil_inv
      rcases hNew : cfg.New with _ | mkNew
      · refine ⟨_, _, FreeList.Get_empty_noNew cfg s hwf hg hfree hNew,
               fun _ => rfl, ?_, List.nodup_nil⟩
        rw [hfree]
        exact .nil none
      · refine ⟨_, _, FreeList.Get_empty_New cfg s mkNew hwf hg hfree hNew,
               fun _ => rfl, ?_, List.nodup_nil⟩
        rw [hfree]
        exact .nil none
    | cons a t =>
      obtain ⟨ha, hnd2⟩ := List.nodup_cons.mp hnd
      obtain ⟨hfree, o, ho, hch2⟩ := hcs.cons_inv
      rcases hresq : cfg.Reset with _ | r
      · exact ⟨_, _, FreeList.Get_reuse_noreset cfg s a o hwf hg hfree ho hresq,
              fun _ => rfl, hch2, hnd2⟩
      · obtain ⟨o2, ho2⟩ := Option.isSome_iff_exists.mp (hres r hresq o)
        exact ⟨_, _, FreeList.Get_reuse_reset cfg s a o o2 r hwf hg hfree ho hresq ho2,
              fun _ => rfl, hch2.update_not_mem a o2 ha, hnd2⟩

/-- Witness for C7: the invariant instance on the concrete one-element
chain, with `Put` of address 2 and a `Get`. -/
theorem claim_C7_witness :
    resolveNext tCfg.ety = some tCfg.L.nextOff ∧
    resetOk tCfg ∧
    goodFL tCfg tStChain ∧
    Chain tStChain.mem tStChain.fl.free [1] ∧
    tStChain.mem.heap 2 = some ⟨22, none⟩ ∧
    (2 : Addr) ∉ ([1] : List Addr) ∧
    (∃ s1, FreeList.Put tCfg tStChain 2 = .ok (s1, ()) ∧ goodFL tCfg s1 ∧
       Chain s1.mem s1.fl.free [2, 1]) ∧
    (∃ s1 out, FreeList.Get tCfg tStChain = .ok (s1, out) ∧ goodFL tCfg s1 ∧
       Chain s1.mem s1.fl.free ([1] : List Addr).tail) :=
  ⟨by decide, by intro r h o; simp [tCfg] at h,
   by intro h; exact absurd h (by decide),
   ⟨ChainSeg.cons (o := ⟨11, none⟩) (by decide) (ChainSeg.nil none), by decide⟩,
   rfl, by decide,
   (claim_C7 tCfg tStChain [1] (by decide) (by intro r h o; simp [tCfg] at h)
     (by intro h; exact absurd h (by decide))
     ⟨ChainSeg.cons (o := ⟨11, none⟩) (by decide) (ChainSeg.nil none), by decide⟩).1 2 ⟨22, none⟩ rfl (by decide),
   (claim_C7 tCfg tStChain [1] (by decide) (by intro r h o; simp [tCfg] at h)
     (by intro h; exact absurd h (by decide))
     ⟨ChainSeg.cons (o := ⟨11, none⟩) (by decide) (ChainSeg.nil none), by decide⟩).2⟩

/-! ### Simulation between the generic and the native free list -/

theorem FreeList.Get_reuse_dangling (cfg : Config P) (s : St P) (x : Addr)
    (hwf : resolveNext cfg.ety = some cfg.L.nextOff)
    (hg : goodFL cfg s)
    (hfree : s.fl.free = some x)
    (hx : s.mem.heap x = none) :
    FreeList.Get cfg s =
      .error (.badAccess,
              { s with fl := { s.fl with initDone := true, next := cfg.L.nextOff } }) := by
  unfold FreeList.Get
  rw [FreeList.init_good cfg s.fl hwf hg]
  simp [hfree, readPtrAt, hx]

theorem FreeList.Put_dangling (cfg : Config P) (s : St P) (x : Addr)
    (hwf : resolveNext cfg.ety = some cfg.L.nextOff)
    (hg : goodFL cfg s)
    (hx : s.mem.heap x = none) :
    FreeList.Put cfg s x =
      .error (.badAccess,
              { s with fl := { s.fl with initDone := true, next := cfg.L.nextOff } }) := by
  unfold FreeList.Put
  rw [FreeList.init_good cfg s.fl hwf hg]
  simp [writePtrAt, hx]

theorem stepFL_good (cfg : Config P) (s : St P) (op : Op)
    (hwf : resolveNext cfg.ety = some cfg.L.nextOff) (hg : goodFL cfg s) :
    goodFL cfg (postState (stepFL cfg s op)) := by
  rcases hdone : s.fl.initDone with _ | _
  · have h := stepFL_post_fresh cfg s op cfg.L.nextOff hdone hwf
    intro _
    exact h.2
  · have h := stepFL_post_initDone cfg s op hdone
    intro _
    rw [h.2]
    exact hg hdone

theorem stepFL_sim (cfg : Config P) (s : St P) (op : Op)
    (hwf : resolveNext cfg.ety = some cfg.L.nextOff)
    (hg : goodFL cfg s) :
    obs (stepFL cfg s op) = stepN cfg (proj s) op := by
  cases op with
  | put x =>
    rcases hx : s.mem.heap x with _ | o
    · simp [stepFL, stepN, FreeList.Put_dangling cfg s x hwf hg hx,
            nativeFreeList.Put, obs, proj, hx]
    · simp [stepFL, stepN, FreeList.Put_eq cfg s x o hwf hg hx,
            nativeFreeList.Put, obs, proj, hx]
  | get =>
    rcases hfree : s.fl.free with _ | x
    · rcases hNew : cfg.New with _ | mkNew
      · simp [stepFL, stepN, FreeList.Get_empty_noNew cfg s hwf hg hfree hNew,
              nativeFreeList.Get, obs, proj, hfree, hNew]
      · simp [stepFL, stepN, FreeList.Get_empty_New cfg s mkNew hwf hg hfree hNew,
              nativeFreeList.Get, obs, proj, hfree, hNew, Mem.alloc]
    · rcases hx : s.mem.heap x with _ | o
      · simp [stepFL, stepN, FreeList.Get_reuse_dangling cfg s x hwf hg hfree hx,
              nativeFreeList.Get, obs, proj, hfree, hx]
      · rcases hresq : cfg.Reset with _ | r
        · simp [stepFL, stepN, FreeList.Get_reuse_noreset cfg s x o hwf hg hfree hx hresq,
                nativeFreeList.Get, obs, proj, hfree, hx, hresq]
        · rcases hro : r o with _ | o2
          · simp [stepFL, stepN,
                  FreeList.Get_reuse_reset_panic cfg s x o r hwf hg hfree hx hresq hro,
                  nativeFreeList.Get, obs, proj, hfree, hx, hresq, hro]
          · simp [stepFL, stepN,
                  FreeList.Get_reuse_reset cfg s x o o2 r hwf hg hfree hx hresq hro,
                  nativeFreeList.Get, obs, proj, hfree, hx, hresq, hro]

theorem runFL_sim (cfg : Config P)
    (hwf : resolveNext cfg.ety = some cfg.L.nextOff) :
    ∀ (ops : List Op) (s : St P), goodFL cfg s →
    obs (runFL cfg s ops) = runN cfg (proj s) ops := by
  intro ops
  induction ops with
  | nil =>
    intro s hg
    simp [runFL, runN, obs]
  | cons op ops ih =>
    intro s hg
    have hstep := stepFL_sim cfg s op hwf hg
    rcases hs : stepFL cfg s op with ⟨k, s1⟩ | ⟨s2, out⟩
    · rw [hs] at hstep
      simp [runFL, runN, hs, ← hstep, obs]
    · rw [hs] at hstep
      have hgood : goodFL cfg s2 := by
        have h := stepFL_good cfg s op hwf hg
        rw [hs] at h
        exact h
      have hihr := ih s2 hgood
      rcases hr : runFL cfg s2 ops with ⟨k2, s3⟩ | ⟨s3, outs⟩
      · rw [hr] at hihr
        simp [runFL, runN, hs, hr, ← hstep, ← hihr, obs]
      · rw [hr] at hihr
        simp [runFL, runN, hs, hr, ← hstep, ← hihr, obs]

/-- Claim C10: over a well-formed element type, the generic `FreeList`
(offset-based field access after one-time resolution) and the naive
baseline `nativeFreeList` (direct `next`-field access), driven by the same
hooks and the same operation sequence from corresponding states, produce
identical outcomes: the same per-operation results and hook events (or
the same panic) and identical final heap, head pointer, and factory
count. -/
theorem claim_C10 (cfg : Config P) (s : St P) (ops : List Op)
    (hwf : resolveNext cfg.ety = some cfg.L.nextOff)
    (hg : goodFL cfg s) :
    obs (runFL cfg s ops) = runN cfg (proj s) ops :=
  runFL_sim cfg hwf ops s hg

/-- Witness for C10: a concrete five-operation run (two puts, three gets)
on the fresh concrete pool, compared against the native baseline. -/
theorem claim_C10_witness :
    resolveNext tCfg.ety = some tCfg.L.nextOff ∧
    goodFL tCfg tSt ∧
    obs (runFL tCfg tSt [Op.put 1, Op.put 2, Op.get, Op.get, Op.get]) =
      runN tCfg (proj tSt) [Op.put 1, Op.put 2, Op.get, Op.get, Op.get] :=
  ⟨by decide, by intro h; exact absurd h (by decide),
   claim_C10 tCfg tSt [Op.put 1, Op.put 2, Op.get, Op.get, Op.get] (by decide)
     (by intro h; exact absurd h (by decide))⟩
